import Mathlib

/-!
Verification of BlockDeletee (src/main.rs) against its specification.

This file shallowly embeds the data model and operations of the program:
pure Rust functions become Lean functions, stateful code becomes explicit
state passing, machine integers become Nat/Int with explicit wrap where
overflow matters, and byte buffers become lists of Nat (each < 256).
Floating-point configuration values (f64) are modelled as exact rationals;
the program only compares and clamps them, so ordering behaviour carries
over.  Each definition's doc comment names the Rust item it embeds.
-/

namespace BlockDeletee

/-! ## Configuration loading (AppConfig::load, main.rs:1124-1163) -/

/-- Embeds the `fill_max_blocks` field of `AppConfig::load` (main.rs:1161):
`parsed.minecraft.fill_max_blocks.unwrap_or(32768).max(1)`. -/
def loadFillMaxBlocks (cfg : Option Nat) : Nat :=
  (cfg.getD 32768).max 1

/-- Embeds the `fuzzy_threshold` clamp of `AppConfig::load` (main.rs:1124-1127):
`let mut t = parsed.speech.fuzzy_threshold.unwrap_or(0.70);
 if t > 0.0 { t = t.clamp(0.5, 0.99); }`.
Rust `f64::clamp(lo, hi)` returns `lo` when below `lo`, `hi` when above `hi`,
and the value itself otherwise, i.e. `min (max t lo) hi`. -/
def loadFuzzyThreshold (cfg : Option ℚ) : ℚ :=
  let t := cfg.getD (7/10)
  if 0 < t then min (max t (1/2)) (99/100) else t

/-! ## Vertical segmentation (MinecraftRconService::build_vertical_segments,
main.rs:2495-2506) -/

/-- Two's-complement truncation to `i32`: embeds Rust's `as i32` cast and
the wrapping `i32` arithmetic of the release build. -/
def wrap32 (z : Int) : Int :=
  let u := z % 4294967296
  if u < 2147483648 then u else u - 4294967296

/-- Embeds `let max_height = (self.fill_max_blocks / area).max(1) as i32`
with `area = 16 * 16` (main.rs:2496-2497): `usize` division and clamp in
Nat, then the truncating `as i32` cast (which wraps the height to a
non-positive value once `fill_max_blocks / 256` reaches 2^31). -/
def maxSegmentHeight (fillMaxBlocks : Nat) : Int :=
  wrap32 ((fillMaxBlocks / (16 * 16)).max 1 : Nat)

/-- Embeds the `while start <= y_max` loop of `build_vertical_segments`
(main.rs:2499-2504) in `i32` semantics: each iteration pushes
`(start, y_max.min(start + max_height - 1))` and restarts at `end + 1`,
both additions wrapping as the release build's `i32` arithmetic does (the
debug build panics at exactly the inputs where a wrap occurs).  The fuel
bounds the remaining iterations; `none` means the loop has not terminated
within the given fuel. -/
def segmentsLoop (maxHeight yMax : Int) : Nat → Int → Option (List (Int × Int))
  | 0, start => if start ≤ yMax then none else some []
  | fuel + 1, start =>
      if start ≤ yMax then
        let e := min yMax (wrap32 (start + maxHeight - 1))
        (segmentsLoop maxHeight yMax fuel (wrap32 (e + 1))).map
          fun rest => (start, e) :: rest
      else some []

/-- Embeds `MinecraftRconService::build_vertical_segments(y_min, y_max)`
(main.rs:2495-2506), starting the loop at `y_min`.  The loop state is the
single `i32` variable `start` and the next state is a function of the
current one, so a terminating run never revisits a `start` value and takes
at most 2^32 iterations; with 2^32 fuel, `some` therefore coincides
exactly with termination of the wrapping `i32` loop and `none` with its
divergence. -/
def buildVerticalSegments (fillMaxBlocks : Nat) (yMin yMax : Int) :
    Option (List (Int × Int)) :=
  segmentsLoop (maxSegmentHeight fillMaxBlocks) yMax 4294967296 yMin

/-! ## Cooldown ledger (spawn_event_worker, main.rs:3189-3197) -/

/-- Embeds the per-(player, block_id) cooldown check of `spawn_event_worker`
(main.rs:3189-3197) for one fixed key.  The `Option ℚ` accumulator is the
`last_trigger` entry (time of the last executed deletion, in seconds);
for each trigger time `t`, the deletion is skipped when
`now.duration_since(prev) < cooldown_seconds`, otherwise the time is
recorded and the deletion executes.  `Instant`s are modelled as rational
timestamps and `duration_since` as subtraction; the result is the list of
trigger times whose deletion actually executed (reached
`delete_block_in_chunk_context`). -/
def cooldownRun (cooldownSeconds : ℚ) : Option ℚ → List ℚ → List ℚ
  | _, [] => []
  | some prev, t :: ts =>
      if t - prev < cooldownSeconds then cooldownRun cooldownSeconds (some prev) ts
      else t :: cooldownRun cooldownSeconds (some t) ts
  | none, t :: ts => t :: cooldownRun cooldownSeconds (some t) ts

/-! ## RCON packet framing and client state
(MinecraftRconClient, main.rs:2089-2212) -/

/-- Embeds an `RconPacket` (main.rs:2083-2087); the `body: String` is kept as
its UTF-8 byte sequence (`String::from_utf8_lossy` is the identity on the
valid UTF-8 bytes the encoder writes). -/
structure RconPacket where
  id : Int
  kind : Int
  body : List Nat
  deriving DecidableEq, Repr

/-- Embeds `i32::to_le_bytes` composed with Rust's wrapping `as i32` cast:
the value is reduced mod 2^32 and split into four little-endian bytes. -/
def i32ToLeBytes (n : Int) : List Nat :=
  let u := (n % 4294967296).toNat
  [u % 256, u / 256 % 256, u / 65536 % 256, u / 16777216 % 256]

/-- Embeds `i32::from_le_bytes` on four bytes: assemble the unsigned value
and reinterpret values at or above 2^31 as negative (two's complement). -/
def leBytesToI32 (b0 b1 b2 b3 : Nat) : Int :=
  let u := b0 + 256 * b1 + 65536 * b2 + 16777216 * b3
  if u < 2147483648 then (u : Int) else (u : Int) - 4294967296

/-- Embeds the packet construction inside `send_packet` (main.rs:2176-2183):
4-byte LE length (= 4 + 4 + body length + 2), 4-byte LE id, 4-byte LE type,
body bytes, two trailing zero bytes.  `send_packet` itself always passes
`id = 0`; the id is a parameter here so the layout can be stated for any
request id. -/
def encodePacket (id kind : Int) (body : List Nat) : List Nat :=
  i32ToLeBytes (4 + 4 + body.length + 2 : Nat) ++ i32ToLeBytes id ++
    i32ToLeBytes kind ++ body ++ [0, 0]

/-- Embeds the mutable state of `MinecraftRconClient` (main.rs:2089-2092)
relevant to request ids: the `next_id: i32` counter (the TCP stream is
elided).  `MinecraftRconClient::connect` initialises it to 1. -/
structure RconClientState where
  nextId : Int
  deriving DecidableEq, Repr

/-- Largest `i32` value, at which `next_id.checked_add(1)` overflows. -/
def i32Max : Int := 2147483647

/-- Embeds `MinecraftRconClient::send_packet` (main.rs:2172-2188):
`let id: i32 = 0; self.next_id = self.next_id.checked_add(1).unwrap_or(1);`
then the packet bytes are written.  Returns the updated state, the request
id returned to the caller (and written into the packet), and the bytes
written to the stream. -/
def sendPacket (st : RconClientState) (kind : Int) (body : List Nat) :
    RconClientState × Int × List Nat :=
  let id : Int := 0
  let nextId' := if st.nextId = i32Max then 1 else st.nextId + 1
  (⟨nextId'⟩, id, encodePacket id kind body)

/-- Embeds `MinecraftRconClient::read_packet` (main.rs:2190-2211) on a byte
stream: read a 4-byte LE length (error if the stream is shorter), reject
lengths outside `10 ..= 1024*1024`, read that many bytes (error if fewer),
reject a payload shorter than 10 bytes, then decode id, type and the body
`rest[8 .. rest.len() - 2]`.  Returns the packet and the unread remainder
of the stream; `none` models the `Err` cases. -/
def readPacket (stream : List Nat) : Option (RconPacket × List Nat) :=
  match stream with
  | b0 :: b1 :: b2 :: b3 :: rest0 =>
      let length := leBytesToI32 b0 b1 b2 b3
      if 10 ≤ length ∧ length ≤ 1048576 then
        if rest0.length < length.toNat then none
        else
          let rest := rest0.take length.toNat
          if rest.length < 10 then none
          else
            let id := leBytesToI32 (rest.getD 0 0) (rest.getD 1 0)
              (rest.getD 2 0) (rest.getD 3 0)
            let kind := leBytesToI32 (rest.getD 4 0) (rest.getD 5 0)
              (rest.getD 6 0) (rest.getD 7 0)
            let body := (rest.drop 8).take (rest.length - 10)
            some (⟨id, kind, body⟩, rest0.drop length.toNat)
      else none
  | _ => none

/-! ## Text normalization (normalize_text, main.rs:1217-1228)

Rust's `char::is_whitespace` is the Unicode White_Space property, which is
small and is embedded exactly.  `str::to_lowercase` and
`char::is_alphanumeric` are full Unicode tables; they are embedded exactly
over the repertoire this program processes (ASCII plus the Cyrillic block),
with all other characters passing through unchanged (for lowercasing) or
classified as non-alphanumeric. -/

/-- Embeds `char::is_whitespace`: the Unicode White_Space property,
reproduced in full. -/
def charIsWhitespace (c : Char) : Bool :=
  let v := c.val.toNat
  decide ((0x9 ≤ v ∧ v ≤ 0xD) ∨ v = 0x20 ∨ v = 0x85 ∨ v = 0xA0 ∨ v = 0x1680 ∨
    (0x2000 ≤ v ∧ v ≤ 0x200A) ∨ v = 0x2028 ∨ v = 0x2029 ∨ v = 0x202F ∨
    v = 0x205F ∨ v = 0x3000)

/-- Embeds `char::is_alphanumeric` over ASCII and the Cyrillic block
(letters U+0400-U+0481 and U+048A-U+04FF; U+0482-U+0489 are signs and
combining marks).  Characters of other scripts are classified
non-alphanumeric in this model. -/
def charIsAlphanumeric (c : Char) : Bool :=
  let v := c.val.toNat
  decide ((0x30 ≤ v ∧ v ≤ 0x39) ∨ (0x41 ≤ v ∧ v ≤ 0x5A) ∨ (0x61 ≤ v ∧ v ≤ 0x7A) ∨
    (0x400 ≤ v ∧ v ≤ 0x481) ∨ (0x48A ≤ v ∧ v ≤ 0x4FF))

/-- Embeds `str::to_lowercase` character-wise over ASCII (A-Z) and the
Russian Cyrillic repertoire (А-Я U+0410-U+042F and Ѐ-Џ U+0400-U+040F,
which includes Ё and Э); other characters pass through unchanged. -/
def charToLower (c : Char) : Char :=
  let v := c.val.toNat
  if 0x41 ≤ v ∧ v ≤ 0x5A then Char.ofNat (v + 0x20)
  else if 0x410 ≤ v ∧ v ≤ 0x42F then Char.ofNat (v + 0x20)
  else if 0x400 ≤ v ∧ v ≤ 0x40F then Char.ofNat (v + 0x50)
  else c

/-- Uppercase letters of the modelled repertoire (the domain of
`charToLower`'s non-identity cases). -/
def charIsUppercase (c : Char) : Bool :=
  let v := c.val.toNat
  decide ((0x41 ≤ v ∧ v ≤ 0x5A) ∨ (0x410 ≤ v ∧ v ≤ 0x42F) ∨ (0x400 ≤ v ∧ v ≤ 0x40F))

/-- Embeds `.replace('ё', "е").replace('э', "е")` (main.rs:1218): both
replacements substitute a single character, so they act character-wise. -/
def foldLookalike (c : Char) : Char :=
  if c = 'ё' then 'е' else if c = 'э' then 'е' else c

/-- Embeds the character filter of `normalize_text` (main.rs:1220-1226):
keep alphanumeric, `_` and whitespace; replace everything else by a space. -/
def classifyChar (c : Char) : Char :=
  if charIsAlphanumeric c || c == '_' || charIsWhitespace c then c else ' '

/-- Embeds `str::split_whitespace` on a character list: split on runs of
whitespace, discarding empty fragments.  The accumulator holds the current
word reversed. -/
def splitWsAux : List Char → List Char → List (List Char)
  | [], acc => if acc.isEmpty then [] else [acc.reverse]
  | c :: rest, acc =>
      if charIsWhitespace c then
        if acc.isEmpty then splitWsAux rest [] else acc.reverse :: splitWsAux rest []
      else splitWsAux rest (c :: acc)

/-- The words of a character list, as `str::split_whitespace` yields them. -/
def splitWsChars (l : List Char) : List (List Char) :=
  splitWsAux l []

/-- Embeds `str::split_whitespace` on strings, collecting the words. -/
def splitWhitespace (s : String) : List String :=
  (splitWsChars s.data).map fun w => ⟨w⟩

/-- Embeds `Vec::join(" ")` on character lists (main.rs:1227). -/
def joinWords : List (List Char) → List Char
  | [] => []
  | [w] => w
  | w :: ws => w ++ ' ' :: joinWords ws

/-- Embeds `Vec::join` with an arbitrary separator on strings
(`words[i..i+n].join(" ")` and `join("")` in the fuzzy candidate builder). -/
def joinSep (sep : String) : List String → String
  | [] => ""
  | [w] => w
  | w :: ws => w ++ sep ++ joinSep sep ws

/-- Embeds `normalize_text` (main.rs:1217-1228): lowercase, fold `ё`/`э` to
`е`, replace non-(alphanumeric/underscore/whitespace) characters by spaces,
then split on whitespace and re-join with single spaces. -/
def normalizeText (s : String) : String :=
  ⟨joinWords (splitWsChars (((s.data.map charToLower).map foldLookalike).map classifyChar))⟩

/-- Spec predicate for C9: no two adjacent spaces anywhere in the list. -/
def noDoubleSpace : List Char → Bool
  | [] => true
  | [_] => true
  | a :: b :: rest => !(a == ' ' && b == ' ') && noDoubleSpace (b :: rest)

/-! ## Input validation (MinecraftRconService, main.rs:2288-2295 and
2352-2370) -/

/-- Embeds `str::starts_with` on character lists (UTF-8 byte equality of a
prefix coincides with character-list prefix equality). -/
def listIsPrefix : List Char → List Char → Bool
  | [], _ => true
  | _ :: _, [] => false
  | a :: as, b :: bs => a == b && listIsPrefix as bs

/-- Characters admitted by the player-name pattern `[A-Za-z0-9_]`
(main.rs:2293). -/
def charIsPlayerNameChar (c : Char) : Bool :=
  decide (('A' ≤ c ∧ c ≤ 'Z') ∨ ('a' ≤ c ∧ c ≤ 'z') ∨ ('0' ≤ c ∧ c ≤ '9') ∨ c = '_')

/-- Embeds the regex `^[A-Za-z0-9_]{1,16}$` (main.rs:2293): whole-string
match of 1 to 16 admitted characters. -/
def playerNameMatches (s : String) : Bool :=
  decide (1 ≤ s.data.length) && decide (s.data.length ≤ 16) &&
    s.data.all charIsPlayerNameChar

/-- Embeds `validate_player_name` (main.rs:2352-2360): the input string is
returned unchanged on a match; `none` models the `Err` case (the Russian
error message is elided). -/
def validatePlayerName (s : String) : Option String :=
  if playerNameMatches s then some s else none

/-- Characters admitted by the block-path pattern `a-z`, `0-9`, `_`, `.`, the slash, and `-`
(main.rs:2294). -/
def charIsBlockPathChar (c : Char) : Bool :=
  decide (('a' ≤ c ∧ c ≤ 'z') ∨ ('0' ≤ c ∧ c ≤ '9') ∨ c = '_' ∨ c = '.' ∨
    c = '/' ∨ c = '-')

/-- Embeds the regex matching the literal text `minecraft:` followed by one or more path characters (main.rs:2294): the literal
prefix `minecraft:` (10 characters) followed by at least one admitted
character, and nothing else. -/
def blockIdMatches (s : String) : Bool :=
  listIsPrefix "minecraft:".data s.data && decide (10 < s.data.length) &&
    (s.data.drop 10).all charIsBlockPathChar

/-- Embeds `validate_block_id` (main.rs:2362-2370): the input string is
returned unchanged on a match; `none` models the `Err` case. -/
def validateBlockId (s : String) : Option String :=
  if blockIdMatches s then some s else none

/-! ## Event pipeline: incremental diffing of in-progress transcripts
(spawn_event_worker, main.rs:3069-3108) -/

/-- Embeds `str::len()`: the UTF-8 byte length of a string. -/
def utf8Len (s : String) : Nat :=
  (s.data.map Char.utf8Size).sum

/-- Embeds `PartialProgressState` (main.rs:1537-1541) for one speaker: the
`last_partial` text and the `processed_committed_words` counter. -/
structure ProgressState where
  lastText : String
  processedCommittedWords : Nat
  deriving DecidableEq, Repr

/-- Embeds the per-event candidate extraction of `spawn_event_worker`
(main.rs:3069-3108) for the single accepted speaker.  The `Option
ProgressState` is that speaker's `partial_progress` entry (`or_default`
creates `("", 0)`); `inProgress` is the event's `is_partial` flag.  The
event text is normalized; events shorter than `min_phrase_chars`
characters are discarded (state untouched, no candidates).  An in-progress
event takes the newly committed words (all but the last word, starting at
the stored counter, counter reset to 0 first when the new text does not
extend the stored one), keeps those of at least 2 bytes, and stores the
new text and counter.  A final event clears the entry and yields the whole
normalized text as the one candidate. -/
def eventStep (minPhraseChars : Nat) (st : Option ProgressState) (text : String)
    (inProgress : Bool) : Option ProgressState × List String :=
  let cleaned := normalizeText text
  if cleaned.data.length < minPhraseChars then (st, [])
  else if inProgress then
    let s := st.getD ⟨"", 0⟩
    let currentWords := splitWhitespace cleaned
    let committedCount := currentWords.length - 1
    let processed := if listIsPrefix s.lastText.data cleaned.data then
      s.processedCommittedWords else 0
    let startIdx := min processed committedCount
    let out := ((currentWords.drop startIdx).take (committedCount - startIdx)).filter
      fun w => decide (2 ≤ utf8Len w)
    (some ⟨cleaned, committedCount⟩, out)
  else (none, [cleaned])

/-! ## Repeat gate (spawn_event_worker, main.rs:3113-3129) -/

/-- Embeds `RepeatGateState` (main.rs:1526-1529) for one
(speaker, candidate) key: `last_seen` as a rational timestamp in seconds,
and the rolling `count`. -/
structure RepeatGateState where
  lastSeen : ℚ
  count : Nat
  deriving DecidableEq, Repr

/-- Embeds `let repeat_window = Duration::from_secs(1)` (main.rs:3061). -/
def repeatWindow : ℚ := 1

/-- Embeds the repeat gate of `spawn_event_worker` (main.rs:3113-3129) for
one (speaker, candidate) key over a sequence of arrival times: the entry is
created with `last_seen = now, count = 0`; the count resets when the gap
since the last occurrence exceeds the window; the candidate passes the gate
iff `(count - 1) % 8 == 0` after incrementing. -/
def repeatGateRun (window : ℚ) : Option RepeatGateState → List ℚ → List Bool
  | _, [] => []
  | st, t :: ts =>
      let s := st.getD ⟨t, 0⟩
      let c0 := if window < t - s.lastSeen then 0 else s.count
      let c := c0 + 1
      decide ((c - 1) % 8 = 0) :: repeatGateRun window (some ⟨t, c⟩) ts

/-! ## Fuzzy alias matching (BlockCatalog::fuzzy_match_aliases,
main.rs:1400-1477)

`aliases_by_word_count` groups every alias under the key equal to its own
word count (main.rs:1367-1372), so iterating all buckets and their member
aliases visits each alias exactly once, with the candidate list determined
by that alias's word count; the `HashSet` results are modelled as lists
with membership semantics.  `strsim::normalized_levenshtein` is
`1 - distance/max(char counts)` with the unit-cost (Levenshtein) edit
distance, modelled over ℚ. -/

/-- Embeds `alias.split_whitespace().count()`, the bucket key of
`aliases_by_word_count` (main.rs:1370). -/
def wordCount (s : String) : Nat :=
  (splitWhitespace s).length

/-- Embeds `str::chars().count()`. -/
def charCount (s : String) : Nat :=
  s.data.length

/-- Embeds `BlockCatalog::make_ngrams` (main.rs:1400-1407): empty for
`n = 0` or `n > words.len()`, else all `n`-windows joined with spaces. -/
def makeNgrams (words : List String) (n : Nat) : List String :=
  if n = 0 ∨ words.length < n then []
  else (List.range (words.length - n + 1)).map fun i =>
    joinSep " " ((words.drop i).take n)

/-- Embeds the `collapsed_cache` entries (main.rs:1433-1440): `n`-windows
joined without spaces, built only when `n ≤ words.len()`. -/
def collapsedNgrams (words : List String) (n : Nat) : List String :=
  if words.length < n then []
  else (List.range (words.length - n + 1)).map fun i =>
    joinSep "" ((words.drop i).take n)

/-- The candidate list used for a bucket of word count `wc`
(main.rs:1444-1452): the `wc`-grams, plus (for single-word aliases only)
the collapsed 2- and 3-grams. -/
def candidatesFor (words : List String) (wc : Nat) : List String :=
  makeNgrams words wc ++
    (if wc = 1 then collapsedNgrams words 2 ++ collapsedNgrams words 3 else [])

/-- Embeds `BlockCatalog::is_plausible_length` (main.rs:1409-1413):
byte-length difference at most `max(2, alias.len() * 0.35)`.  The
truncating `as usize` of the `f64` product is modelled as the exact floor
`35 * len / 100` (the f64 rounding can differ by one at isolated lengths;
no claim depends on the exact cutoff). -/
def isPlausibleLength (al candidate : String) : Bool :=
  let la := utf8Len al
  let lc := utf8Len candidate
  decide (max la lc - min la lc ≤ max 2 (35 * la / 100))

/-- Embeds `strsim::normalized_levenshtein`: 1 for two empty strings, else
`1 - distance / max(char counts)`, with the unit-cost edit distance
(`Levenshtein.defaultCost` is delete 1, insert 1, substitute 0 or 1). -/
def normalizedLevenshtein (a b : String) : ℚ :=
  if a.data = [] ∧ b.data = [] then 1
  else 1 - ((levenshtein Levenshtein.defaultCost a.data b.data : ℕ) : ℚ) /
    (max (charCount a) (charCount b) : ℚ)

/-- Embeds `BlockCatalog::fuzzy_match_aliases` (main.rs:1415-1477): empty
when the normalized text has no words; otherwise an alias is matched iff it
is not already exact-matched, has at least 5 characters, and some candidate
from its word-count bucket passes the length-window and first-character
filters and reaches the similarity threshold (the `break` on the first
match only stops the scan and does not affect membership). -/
def fuzzyMatchAliases (aliases : List String) (normalizedText : String)
    (threshold : ℚ) (alreadyMatched : List String) : List String :=
  let words := splitWhitespace normalizedText
  if words.isEmpty then []
  else
    aliases.filter fun al =>
      !alreadyMatched.contains al && decide (5 ≤ charCount al) &&
        (candidatesFor words (wordCount al)).any fun candidate =>
          isPlausibleLength al candidate &&
            al.data.head? == candidate.data.head? &&
            decide (threshold ≤ normalizedLevenshtein al candidate)

/-- An integer already in `i32` range is fixed by the truncating cast. -/
theorem wrap32_eq_of (z : Int) (h1 : -2147483648 ≤ z) (h2 : z ≤ 2147483647) :
    wrap32 z = z := by
  unfold wrap32
  dsimp only
  split_ifs with h
  · omega
  · omega

/-- When the height is positive and the whole range keeps the loop inside
`i32` bounds, the loop terminates within its fuel and every produced
segment is nonempty and no taller than the height. -/
theorem segmentsLoop_sound (maxHeight yMax : Int)
    (hmh : 1 ≤ maxHeight) (hymax : yMax + maxHeight ≤ 2147483647) :
    ∀ (fuel : Nat) (start : Int), -2147483648 ≤ start →
      (yMax + 1 - start).toNat ≤ fuel →
      ∃ segs, segmentsLoop maxHeight yMax fuel start = some segs ∧
        ∀ s e, (s, e) ∈ segs → s ≤ e ∧ e - s + 1 ≤ maxHeight := by
  intro fuel
  induction fuel with
  | zero =>
      intro start _hs hf
      have hgt : ¬start ≤ yMax := by omega
      exact ⟨[], by simp [segmentsLoop, hgt], fun s e h => absurd h (List.not_mem_nil _)⟩
  | succ fuel ih =>
      intro start hs hf
      by_cases hle : start ≤ yMax
      · have hw1 : wrap32 (start + maxHeight - 1) = start + maxHeight - 1 :=
          wrap32_eq_of _ (by omega) (by omega)
        have hw2 : wrap32 (min yMax (start + maxHeight - 1) + 1) =
            min yMax (start + maxHeight - 1) + 1 :=
          wrap32_eq_of _ (by omega) (by omega)
        obtain ⟨rest, hrest, hprops⟩ :=
          ih (min yMax (start + maxHeight - 1) + 1) (by omega) (by omega)
        refine ⟨(start, min yMax (start + maxHeight - 1)) :: rest, ?_, ?_⟩
        · simp only [segmentsLoop, if_pos hle, hw1, hw2, hrest]
          rfl
        · intro s e hmem
          rcases List.mem_cons.mp hmem with heq | htail
          · injection heq with hs' he'
            subst hs'; subst he'
            exact ⟨by omega, by omega⟩
          · exact hprops s e htail
      · exact ⟨[], by simp [segmentsLoop, hle], fun s e h => absurd h (List.not_mem_nil _)⟩

/-- Claim C1, counterexample: `fillMaxBlocks = 1` is accepted at load
(`loadFillMaxBlocks (some 1) = 1 ≥ 1`), and on the range `(0, 0)` the loop
terminates with the single segment `(0, 0)`, whose volume `16*16*1 = 256`
exceeds the budget 1.  The claim as stated is therefore false. -/
theorem c1_counterexample :
    loadFillMaxBlocks (some 1) = 1 ∧
    buildVerticalSegments (loadFillMaxBlocks (some 1)) 0 0 = some [(0, 0)] ∧
    ¬(16 * 16 * ((0 : Int) - 0 + 1) ≤ (loadFillMaxBlocks (some 1) : Int)) := by
  refine ⟨rfl, by decide, by decide⟩

/-- Claim C1 (amended): for every fillMaxBlocks accepted at configuration
load with `256 ≤ fillMaxBlocks` and `fillMaxBlocks / 256 < 2^31` (so the
truncating `as i32` cast of the height is value-preserving), and every
vertical range with `-2^31 ≤ yMin` and `yMax + fillMaxBlocks/256 ≤ i32::MAX`
(so the `i32` loop arithmetic never wraps), `build_vertical_segments`
terminates and every segment `(s, e)` is nonempty, of height at most
`max(1, fillMaxBlocks / 256) = fillMaxBlocks / 256`, and of volume
`16*16*(e - s + 1) ≤ fillMaxBlocks`.  For accepted budgets below 256 the
clamped height 1 yields 256-block segments exceeding the budget; for
budgets of 2^39 and above the cast wraps the height to a non-positive
`i32`, and for ranges touching `i32::MAX` the loop overflows, where the
program panics or diverges. -/
theorem c1_segment_budget (cfg : Option Nat) (yMin yMax : Int)
    (hfill : 256 ≤ loadFillMaxBlocks cfg)
    (hcast : loadFillMaxBlocks cfg / 256 < 2147483648)
    (hymin : -2147483648 ≤ yMin)
    (hymax : yMax + ((loadFillMaxBlocks cfg / 256 : Nat) : Int) ≤ i32Max) :
    ∃ segs, buildVerticalSegments (loadFillMaxBlocks cfg) yMin yMax = some segs ∧
      ∀ s e, (s, e) ∈ segs → s ≤ e ∧
        e - s + 1 ≤ ((loadFillMaxBlocks cfg / 256 : Nat) : Int) ∧
        16 * 16 * (e - s + 1) ≤ (loadFillMaxBlocks cfg : Int) := by
  have hM : i32Max = 2147483647 := rfl
  rw [hM] at hymax
  have hclamp : (loadFillMaxBlocks cfg / (16 * 16)).max 1 = loadFillMaxBlocks cfg / 256 := by
    norm_num
    omega
  have hmh_val : maxSegmentHeight (loadFillMaxBlocks cfg) =
      ((loadFillMaxBlocks cfg / 256 : Nat) : Int) := by
    unfold maxSegmentHeight
    rw [hclamp]
    exact wrap32_eq_of _ (by omega) (by omega)
  have hdiv1 : 1 ≤ loadFillMaxBlocks cfg / 256 := by omega
  have hmh1 : 1 ≤ maxSegmentHeight (loadFillMaxBlocks cfg) := by
    rw [hmh_val]
    exact_mod_cast hdiv1
  obtain ⟨segs, hsegs, hprops⟩ :=
    segmentsLoop_sound (maxSegmentHeight (loadFillMaxBlocks cfg)) yMax hmh1
      (by rw [hmh_val]; exact hymax) 4294967296 yMin hymin
      (by rw [hmh_val] at hmh1; omega)
  refine ⟨segs, hsegs, fun s e hmem => ?_⟩
  obtain ⟨h1, h2⟩ := hprops s e hmem
  rw [hmh_val] at h2
  refine ⟨h1, h2, ?_⟩
  have hdm : loadFillMaxBlocks cfg / 256 * 256 ≤ loadFillMaxBlocks cfg :=
    Nat.div_mul_le_self _ 256
  have hle : ((loadFillMaxBlocks cfg / 256 : Nat) : Int) * 256 ≤
      ((loadFillMaxBlocks cfg : Nat) : Int) := by exact_mod_cast hdm
  linarith

/-- Witness for C1 (amended) at the default budget 32768 and the overworld
range (-64, 319): the loop terminates with exactly three segments of
height 128, and the first, (-64, 63), satisfies the budget bound. -/
theorem c1_segment_budget_witness :
    256 ≤ loadFillMaxBlocks none ∧
    buildVerticalSegments (loadFillMaxBlocks none) (-64) 319 =
      some [(-64, 63), (64, 191), (192, 319)] ∧
    ((-64 : Int) ≤ 63 ∧
      (63 : Int) - (-64) + 1 ≤ ((loadFillMaxBlocks none / 256 : Nat) : Int) ∧
      16 * 16 * ((63 : Int) - (-64) + 1) ≤ (loadFillMaxBlocks none : Int)) := by
  have h256 : 256 ≤ loadFillMaxBlocks none := by decide
  have heval : buildVerticalSegments (loadFillMaxBlocks none) (-64) 319 =
      some [(-64, 63), (64, 191), (192, 319)] := by decide
  obtain ⟨segs, hsegs, hprop⟩ := c1_segment_budget none (-64) 319 h256
    (by decide) (by decide) (by decide)
  have hsegs' : segs = [(-64, 63), (64, 191), (192, 319)] :=
    Option.some.inj (hsegs.symm.trans heval)
  refine ⟨h256, heval, hprop (-64) 63 ?_⟩
  rw [hsegs']
  simp

/-- Claim C10: the loaded `speech.fuzzy_threshold` is either non-positive or
lies in [0.5, 0.99]; a configured positive value below 0.5 is raised to 0.5,
a value above 0.99 is lowered to 0.99, and the loaded value is never
strictly between 0 and 0.5 (the event worker passes this loaded value
directly to matching, main.rs:3052 and 3131). -/
theorem c10_fuzzy_threshold_clamp :
    (∀ cfg : Option ℚ, loadFuzzyThreshold cfg ≤ 0 ∨
      (1/2 ≤ loadFuzzyThreshold cfg ∧ loadFuzzyThreshold cfg ≤ 99/100)) ∧
    (∀ t : ℚ, 0 < t → t < 1/2 → loadFuzzyThreshold (some t) = 1/2) ∧
    (∀ t : ℚ, 99/100 < t → loadFuzzyThreshold (some t) = 99/100) ∧
    (∀ cfg : Option ℚ, ¬(0 < loadFuzzyThreshold cfg ∧ loadFuzzyThreshold cfg < 1/2)) := by
  have key : ∀ cfg : Option ℚ, loadFuzzyThreshold cfg ≤ 0 ∨
      (1/2 ≤ loadFuzzyThreshold cfg ∧ loadFuzzyThreshold cfg ≤ 99/100) := by
    intro cfg
    unfold loadFuzzyThreshold
    set t := cfg.getD (7/10) with ht
    by_cases h : 0 < t
    · right
      rw [if_pos h]
      exact ⟨le_min (le_max_right t (1/2)) (by norm_num), min_le_right _ _⟩
    · left
      rw [if_neg h]
      exact le_of_not_lt h
  refine ⟨key, ?_, ?_, ?_⟩
  · intro t h0 h12
    unfold loadFuzzyThreshold
    simp only [Option.getD_some]
    rw [if_pos h0, max_eq_right (le_of_lt h12), min_eq_left (by norm_num)]
  · intro t h99
    have h0 : (0 : ℚ) < t := lt_trans (by norm_num) h99
    unfold loadFuzzyThreshold
    simp only [Option.getD_some]
    rw [if_pos h0, max_eq_left (le_trans (by norm_num) (le_of_lt h99)),
      min_eq_right (le_of_lt h99)]
  · intro cfg hcontra
    rcases key cfg with h | ⟨h, _⟩
    · linarith [hcontra.1]
    · linarith [hcontra.2]

/-- Witness for C10: a configured 0.25 loads as 0.5; a configured 1 loads as
0.99; the invariant holds at 0.25. -/
theorem c10_fuzzy_threshold_clamp_witness :
    loadFuzzyThreshold (some (1/4)) = 1/2 ∧
    loadFuzzyThreshold (some 1) = 99/100 ∧
    (loadFuzzyThreshold (some (1/4)) ≤ 0 ∨
      (1/2 ≤ loadFuzzyThreshold (some (1/4)) ∧ loadFuzzyThreshold (some (1/4)) ≤ 99/100)) ∧
    ¬(0 < loadFuzzyThreshold (some (1/4)) ∧ loadFuzzyThreshold (some (1/4)) < 1/2) :=
  ⟨c10_fuzzy_threshold_clamp.2.1 (1/4) (by norm_num) (by norm_num),
   c10_fuzzy_threshold_clamp.2.2.1 1 (by norm_num),
   c10_fuzzy_threshold_clamp.1 (some (1/4)),
   c10_fuzzy_threshold_clamp.2.2.2 (some (1/4))⟩

/-- Claim C6: two delete triggers for the same (player, identifier) key
within the cooldown window cause exactly one executed deletion (the second
never reaches `delete_block_in_chunk_context`); spaced beyond the window,
both execute. -/
theorem c6_cooldown (cooldownSeconds t1 t2 : ℚ) :
    (t2 - t1 < cooldownSeconds → cooldownRun cooldownSeconds none [t1, t2] = [t1]) ∧
    (cooldownSeconds < t2 - t1 → cooldownRun cooldownSeconds none [t1, t2] = [t1, t2]) := by
  constructor
  · intro h
    simp [cooldownRun, if_pos h]
  · intro h
    simp [cooldownRun, if_neg (not_lt.mpr (le_of_lt h))]

/-- Witness for C6 with the default 2-second cooldown: triggers at 0 and 1
execute once; triggers at 0 and 5 both execute. -/
theorem c6_cooldown_witness :
    cooldownRun 2 none [0, 1] = [0] ∧ cooldownRun 2 none [0, 5] = [0, 5] :=
  ⟨(c6_cooldown 2 0 1).1 (by norm_num), (c6_cooldown 2 0 5).2 (by norm_num)⟩

/-- Claim C2, counterexample: two successive `send_packet` calls on a fresh
connection (`next_id = 1`, as set by `connect`) write byte-identical
packets, both carrying request id 0 — the second packet's id is not
strictly larger than the first's. -/
theorem c2_counterexample :
    (sendPacket ⟨1⟩ 2 [99]).2.1 = 0 ∧
    (sendPacket (sendPacket ⟨1⟩ 2 [99]).1 2 [99]).2.1 = 0 ∧
    (sendPacket (sendPacket ⟨1⟩ 2 [99]).1 2 [99]).2.2 = (sendPacket ⟨1⟩ 2 [99]).2.2 ∧
    ¬((sendPacket (sendPacket ⟨1⟩ 2 [99]).1 2 [99]).2.1 > (sendPacket ⟨1⟩ 2 [99]).2.1) := by
  decide

/-- Claim C2 (amended): every packet sent carries request id 0 (the bytes
written are exactly `encodePacket 0 kind body`); the connection's internal
`next_id` counter does increase by 1 on every `send_packet` call, wrapping
to 1 when it would overflow `i32::MAX`, but it is never written into a
packet. -/
theorem c2_request_id (st : RconClientState) (kind : Int) (body : List Nat) :
    (sendPacket st kind body).2.1 = 0 ∧
    (sendPacket st kind body).2.2 = encodePacket 0 kind body ∧
    (st.nextId ≠ i32Max → (sendPacket st kind body).1.nextId = st.nextId + 1) ∧
    (st.nextId = i32Max → (sendPacket st kind body).1.nextId = 1) := by
  refine ⟨rfl, rfl, ?_, ?_⟩
  · intro h
    simp [sendPacket, if_neg h]
  · intro h
    simp [sendPacket, if_pos h]

/-- Witness for C2 (amended) at `next_id = 5`, an auth packet with empty
body: the id written is 0 and the counter advances to 6. -/
theorem c2_request_id_witness :
    (sendPacket ⟨5⟩ 3 []).2.1 = 0 ∧
    (sendPacket ⟨5⟩ 3 []).2.2 = encodePacket 0 3 [] ∧
    (sendPacket ⟨5⟩ 3 []).1.nextId = 5 + 1 :=
  ⟨(c2_request_id ⟨5⟩ 3 []).1, (c2_request_id ⟨5⟩ 3 []).2.1,
   (c2_request_id ⟨5⟩ 3 []).2.2.1 (by decide)⟩



/-- Claim C3, counterexample: feeding the in-progress events "a", "a b",
"a b c" through the per-event candidate extraction (with the default
`min_phrase_chars = 2`) yields the candidate lists [], [], [] — the second
list is not ["a"], because each committed word must be at least 2 bytes
long (main.rs:3098), so the one-letter words "a" and "b" are filtered
out. -/
theorem c3_counterexample :
    (eventStep 2 none "a" true).2 = [] ∧
    (eventStep 2 (eventStep 2 none "a" true).1 "a b" true).2 = [] ∧
    (eventStep 2
      (eventStep 2 (eventStep 2 none "a" true).1 "a b" true).1 "a b c" true).2 = [] ∧
    ([] : List String) ≠ ["a"] := by
  refine ⟨by decide, by decide, by decide, by decide⟩

/-- Claim C3 (amended): with committed words of at least 2 bytes (doubling
each letter: "aa", "aa bb", "aa bb cc"), the pipeline yields the committed
candidate lists [], ["aa"], ["bb"] in turn — never re-emitting "aa" — while
the literal one-letter trace "a", "a b", "a b c" yields [], [], [] because
each committed word must be at least 2 bytes long; and feeding the revised
text "xx yy" after "aa bb" resets the committed-word counter to zero, so
its first word "xx" is emitted (reprocessed from index 0). -/
theorem c3_incremental_diffing :
    (eventStep 2 none "aa" true).2 = [] ∧
    (eventStep 2 (eventStep 2 none "aa" true).1 "aa bb" true).2 = ["aa"] ∧
    (eventStep 2
      (eventStep 2 (eventStep 2 none "aa" true).1 "aa bb" true).1
      "aa bb cc" true).2 = ["bb"] ∧
    (eventStep 2
      (eventStep 2 (eventStep 2 none "aa" true).1 "aa bb" true).1
      "xx yy" true).2 = ["xx"] := by
  refine ⟨by decide, by decide, by decide, by decide⟩

/-- Claim C7: every string accepted by block-identifier validation is
returned unchanged; "Minecraft:Dirt", "dirt" and "a b:c" are always
rejected; and player-name validation likewise passes through every name
matching its 1-16 character pattern unchanged. -/
theorem c7_validation_roundtrip :
    (∀ s : String, blockIdMatches s = true → validateBlockId s = some s) ∧
    validateBlockId "Minecraft:Dirt" = none ∧
    validateBlockId "dirt" = none ∧
    validateBlockId "a b:c" = none ∧
    (∀ s : String, playerNameMatches s = true → validatePlayerName s = some s) := by
  refine ⟨?_, by decide, by decide, by decide, ?_⟩
  · intro s h
    simp [validateBlockId, h]
  · intro s h
    simp [validatePlayerName, h]

/-- Witness for C7 at the identifiers "minecraft:dirt" and "Steve_1". -/
theorem c7_validation_roundtrip_witness :
    validateBlockId "minecraft:dirt" = some "minecraft:dirt" ∧
    validatePlayerName "Steve_1" = some "Steve_1" :=
  ⟨c7_validation_roundtrip.1 "minecraft:dirt" (by decide),
   c7_validation_roundtrip.2.2.2.2 "Steve_1" (by decide)⟩

/-- When no gap exceeds the window, the repeat gate never resets: from a
live entry with count `cnt`, the pass flags depend only on the running
count. -/
theorem repeatGateRun_no_reset (w : ℚ) (ts : List ℚ) : ∀ (prev : ℚ) (cnt : Nat),
    List.Chain' (fun a b => a ≤ b ∧ b - a ≤ w) (prev :: ts) →
    repeatGateRun w (some ⟨prev, cnt⟩) ts =
      (List.range ts.length).map (fun i => decide ((cnt + i) % 8 = 0)) := by
  induction ts with
  | nil => intro prev cnt _; rfl
  | cons t ts ih =>
      intro prev cnt hchain
      rw [List.chain'_cons] at hchain
      obtain ⟨⟨hle, hgap⟩, hchain'⟩ := hchain
      simp only [repeatGateRun, Option.getD_some]
      rw [if_neg (not_lt.mpr hgap)]
      rw [ih t (cnt + 1) hchain']
      simp only [List.length_cons, List.range_succ_eq_map, List.map_cons, List.map_map]
      refine congrArg₂ List.cons ?_ ?_
      · have h : cnt + 1 - 1 = cnt + 0 := by omega
        rw [h]
      · refine List.map_congr_left ?_
        intro i _
        have h : cnt + 1 + i = cnt + (i + 1) := by omega
        simp [h]

/-- Claim C5: for any 16 arrival times of one (speaker, candidate) pair in
which every consecutive gap lies within the 1-second repeat window, the
gate passes exactly occurrences 1 and 9 and suppresses the other 14. -/
theorem c5_repeat_gate (times : List ℚ) (hlen : times.length = 16)
    (hchain : List.Chain' (fun a b => a ≤ b ∧ b - a ≤ repeatWindow) times) :
    repeatGateRun repeatWindow none times =
      [true, false, false, false, false, false, false, false,
       true, false, false, false, false, false, false, false] ∧
    (repeatGateRun repeatWindow none times).count true = 2 := by
  obtain ⟨t, ts, rfl⟩ : ∃ t ts, times = t :: ts := by
    cases times with
    | nil => simp at hlen
    | cons a l => exact ⟨a, l, rfl⟩
  have hts : ts.length = 15 := by simpa using hlen
  have key : repeatGateRun repeatWindow none (t :: ts) =
      decide ((0 + 1 - 1) % 8 = 0) :: repeatGateRun repeatWindow (some ⟨t, 0 + 1⟩) ts := by
    simp only [repeatGateRun, Option.getD_none]
    rw [sub_self, ite_self]
    norm_num
  rw [key, repeatGateRun_no_reset repeatWindow ts t (0 + 1) hchain, hts]
  constructor
  · decide
  · decide

/-- Witness for C5: sixteen simultaneous arrivals (all gaps 0 ≤ window). -/
theorem c5_repeat_gate_witness :
    ([0, 0, 0, 0, 0, 0, 0, 0, 0, 0, 0, 0, 0, 0, 0, (0 : ℚ)].length = 16) ∧
    List.Chain' (fun a b => a ≤ b ∧ b - a ≤ repeatWindow)
      [0, 0, 0, 0, 0, 0, 0, 0, 0, 0, 0, 0, 0, 0, 0, (0 : ℚ)] ∧
    (repeatGateRun repeatWindow none
        [0, 0, 0, 0, 0, 0, 0, 0, 0, 0, 0, 0, 0, 0, 0, (0 : ℚ)] =
      [true, false, false, false, false, false, false, false,
       true, false, false, false, false, false, false, false] ∧
    (repeatGateRun repeatWindow none
        [0, 0, 0, 0, 0, 0, 0, 0, 0, 0, 0, 0, 0, 0, 0, (0 : ℚ)]).count true = 2) := by
  have h1 : ([0, 0, 0, 0, 0, 0, 0, 0, 0, 0, 0, 0, 0, 0, 0, (0 : ℚ)].length = 16) := rfl
  have h2 : List.Chain' (fun a b => a ≤ b ∧ b - a ≤ repeatWindow)
      [0, 0, 0, 0, 0, 0, 0, 0, 0, 0, 0, 0, 0, 0, 0, (0 : ℚ)] := by
    norm_num [List.chain'_cons, repeatWindow]
  exact ⟨h1, h2, c5_repeat_gate _ h1 h2⟩

/-- Valid scalar values below the surrogate range survive `Char.ofNat`. -/
theorem char_ofNat_valToNat (n : Nat) (h : n < 55296) : (Char.ofNat n).val.toNat = n := by
  unfold Char.ofNat
  rw [dif_pos (Or.inl h)]
  simp [Char.ofNatAux, UInt32.ofNat', Nat.mod_eq_of_lt (by omega : n < 4294967296)]
  rfl

/-- Lowercasing yields no uppercase character of the modelled repertoire. -/
theorem charIsUppercase_charToLower (c : Char) :
    charIsUppercase (charToLower c) = false := by
  unfold charToLower
  dsimp only
  split_ifs with h1 h2 h3
  · unfold charIsUppercase
    rw [decide_eq_false_iff_not]
    rw [char_ofNat_valToNat _ (by omega)]
    omega
  · unfold charIsUppercase
    rw [decide_eq_false_iff_not]
    rw [char_ofNat_valToNat _ (by omega)]
    omega
  · unfold charIsUppercase
    rw [decide_eq_false_iff_not]
    rw [char_ofNat_valToNat _ (by omega)]
    omega
  · unfold charIsUppercase
    rw [decide_eq_false_iff_not]
    omega

/-- The fold output is never `ё` or `э`, and preserves non-uppercase. -/
theorem foldLookalike_props (c : Char) :
    foldLookalike c ≠ 'ё' ∧ foldLookalike c ≠ 'э' ∧
      (charIsUppercase c = false → charIsUppercase (foldLookalike c) = false) := by
  unfold foldLookalike
  split_ifs with h1 h2
  · exact ⟨by decide, by decide, fun _ => by decide⟩
  · exact ⟨by decide, by decide, fun _ => by decide⟩
  · exact ⟨h1, h2, fun h => h⟩

/-- The per-character pipeline of `normalize_text` produces characters that
are alphanumeric, `_` or whitespace when not replaced by a space, are never
uppercase, and are never `ё` or `э`. -/
theorem pipeline_char_props (y : Char) :
    (charIsWhitespace (classifyChar (foldLookalike (charToLower y))) = false →
      charIsAlphanumeric (classifyChar (foldLookalike (charToLower y))) = true ∨
        classifyChar (foldLookalike (charToLower y)) = '_') ∧
    charIsUppercase (classifyChar (foldLookalike (charToLower y))) = false ∧
    classifyChar (foldLookalike (charToLower y)) ≠ 'ё' ∧
    classifyChar (foldLookalike (charToLower y)) ≠ 'э' := by
  obtain ⟨hne1, hne2, hup⟩ := foldLookalike_props (charToLower y)
  have hupper := hup (charIsUppercase_charToLower y)
  unfold classifyChar
  by_cases hk : (charIsAlphanumeric (foldLookalike (charToLower y)) ||
      foldLookalike (charToLower y) == '_' ||
      charIsWhitespace (foldLookalike (charToLower y))) = true
  · rw [if_pos hk]
    refine ⟨?_, hupper, hne1, hne2⟩
    intro hws
    rcases Bool.or_eq_true _ _ |>.mp hk with h | h
    · rcases Bool.or_eq_true _ _ |>.mp h with h' | h'
      · exact Or.inl h'
      · exact Or.inr (by simpa using h')
    · rw [h] at hws
      exact absurd hws (by simp)
  · rw [if_neg hk]
    refine ⟨fun hws => absurd hws (by decide), by decide, by decide, by decide⟩

/-- Words produced by the whitespace splitter are nonempty, contain no
whitespace, and draw their characters from the input or the accumulator. -/
theorem splitWsAux_sound : ∀ (l acc : List Char),
    (∀ c ∈ acc, charIsWhitespace c = false) →
    ∀ w ∈ splitWsAux l acc, w ≠ [] ∧
      ∀ c ∈ w, charIsWhitespace c = false ∧ (c ∈ l ∨ c ∈ acc) := by
  intro l
  induction l with
  | nil =>
      intro acc hacc w hw
      unfold splitWsAux at hw
      by_cases hemp : acc.isEmpty
      · rw [if_pos hemp] at hw
        exact absurd hw (List.not_mem_nil w)
      · rw [if_neg hemp] at hw
        rw [List.mem_singleton] at hw
        subst hw
        refine ⟨?_, ?_⟩
        · simp only [ne_eq, List.reverse_eq_nil_iff]
          exact fun h => hemp (List.isEmpty_iff.mpr h)
        · intro c hc
          rw [List.mem_reverse] at hc
          exact ⟨hacc c hc, Or.inr hc⟩
  | cons a rest ih =>
      intro acc hacc w hw
      unfold splitWsAux at hw
      by_cases hws : charIsWhitespace a
      · rw [if_pos hws] at hw
        by_cases hemp : acc.isEmpty
        · rw [if_pos hemp] at hw
          obtain ⟨hne, hmem⟩ := ih [] (by simp) w hw
          refine ⟨hne, fun c hc => ?_⟩
          obtain ⟨hcws, hor⟩ := hmem c hc
          rcases hor with h | h
          · exact ⟨hcws, Or.inl (List.mem_cons_of_mem a h)⟩
          · exact absurd h (List.not_mem_nil c)
        · rw [if_neg hemp] at hw
          rcases List.mem_cons.mp hw with heq | htail
          · subst heq
            refine ⟨?_, ?_⟩
            · simp only [ne_eq, List.reverse_eq_nil_iff]
              exact fun h => hemp (List.isEmpty_iff.mpr h)
            · intro c hc
              rw [List.mem_reverse] at hc
              exact ⟨hacc c hc, Or.inr hc⟩
          · obtain ⟨hne, hmem⟩ := ih [] (by simp) w htail
            refine ⟨hne, fun c hc => ?_⟩
            obtain ⟨hcws, hor⟩ := hmem c hc
            rcases hor with h | h
            · exact ⟨hcws, Or.inl (List.mem_cons_of_mem a h)⟩
            · exact absurd h (List.not_mem_nil c)
      · rw [if_neg hws] at hw
        have hacc' : ∀ c ∈ a :: acc, charIsWhitespace c = false := by
          intro c hc
          rcases List.mem_cons.mp hc with rfl | h
          · exact Bool.not_eq_true _ ▸ hws
          · exact hacc c h
        obtain ⟨hne, hmem⟩ := ih (a :: acc) hacc' w hw
        refine ⟨hne, fun c hc => ?_⟩
        obtain ⟨hcws, hor⟩ := hmem c hc
        rcases hor with h | h
        · exact ⟨hcws, Or.inl (List.mem_cons_of_mem a h)⟩
        · rcases List.mem_cons.mp h with rfl | h'
          · exact ⟨hcws, Or.inl (List.mem_cons_self _ _)⟩
          · exact ⟨hcws, Or.inr h'⟩

/-- A leading non-space character does not affect `noDoubleSpace`. -/
theorem noDoubleSpace_cons_of_ne (c : Char) (l : List Char) (h : c ≠ ' ') :
    noDoubleSpace (c :: l) = noDoubleSpace l := by
  cases l with
  | nil => simp [noDoubleSpace]
  | cons b r => simp [noDoubleSpace, h]

/-- Prepending a space-free run does not affect `noDoubleSpace`. -/
theorem noDoubleSpace_append (w l : List Char) (hw : ∀ c ∈ w, c ≠ ' ') :
    noDoubleSpace (w ++ l) = noDoubleSpace l := by
  induction w with
  | nil => rfl
  | cons c w' ih =>
      rw [List.cons_append, noDoubleSpace_cons_of_ne c _ (hw c (List.mem_cons_self c w'))]
      exact ih fun x hx => hw x (List.mem_cons_of_mem c hx)

/-- Joining nonempty words yields a nonempty list. -/
theorem joinWords_ne_nil : ∀ (ws : List (List Char)), ws ≠ [] →
    (∀ w ∈ ws, w ≠ []) → joinWords ws ≠ [] := by
  intro ws hne hw
  match ws with
  | [w] => exact hw w (List.mem_singleton.mpr rfl)
  | w :: w' :: ws' =>
      show w ++ ' ' :: joinWords (w' :: ws') ≠ []
      simp

/-- Every character of a join is a space or comes from one of the words. -/
theorem joinWords_mem : ∀ (ws : List (List Char)) (c : Char), c ∈ joinWords ws →
    c = ' ' ∨ ∃ w ∈ ws, c ∈ w := by
  intro ws
  induction ws with
  | nil => intro c hc; exact absurd hc (List.not_mem_nil c)
  | cons w ws' ih =>
      intro c hc
      match ws', hc with
      | [], hc => exact Or.inr ⟨w, List.mem_singleton.mpr rfl, hc⟩
      | w' :: ws'', hc =>
          rw [show joinWords (w :: w' :: ws'') = w ++ ' ' :: joinWords (w' :: ws'') from rfl,
            List.mem_append] at hc
          rcases hc with h | h
          · exact Or.inr ⟨w, List.mem_cons_self _ _, h⟩
          · rcases List.mem_cons.mp h with rfl | h'
            · exact Or.inl rfl
            · rcases ih c h' with h'' | ⟨v, hv, hcv⟩
              · exact Or.inl h''
              · exact Or.inr ⟨v, List.mem_cons_of_mem w hv, hcv⟩

/-- Joining nonempty space-free words gives no double space and no space at
either edge. -/
theorem joinWords_ok : ∀ (ws : List (List Char)),
    (∀ w ∈ ws, w ≠ [] ∧ ∀ c ∈ w, c ≠ ' ') →
    noDoubleSpace (joinWords ws) = true ∧
      (joinWords ws).head? ≠ some ' ' ∧ (joinWords ws).getLast? ≠ some ' ' := by
  intro ws
  induction ws with
  | nil => exact fun _ => ⟨rfl, by simp [joinWords], by simp [joinWords]⟩
  | cons w ws' ih =>
      intro hws
      obtain ⟨hwne, hwsp⟩ := hws w (List.mem_cons_self _ _)
      match ws' with
      | [] =>
          show noDoubleSpace (joinWords [w]) = true ∧ _
          refine ⟨?_, ?_, ?_⟩
          · have := noDoubleSpace_append w [] hwsp
            rw [List.append_nil] at this
            exact this.trans rfl
          · show w.head? ≠ some ' '
            intro hcontra
            exact hwsp ' ' (List.mem_of_mem_head? hcontra) rfl
          · show w.getLast? ≠ some ' '
            intro hcontra
            exact hwsp ' ' (List.mem_of_getLast?_eq_some hcontra) rfl
      | w' :: ws'' =>
          have hrest : ∀ v ∈ w' :: ws'', v ≠ [] ∧ ∀ c ∈ v, c ≠ ' ' := by
            intro v hv
            exact hws v (List.mem_cons_of_mem w hv)
          obtain ⟨hnds, hhead, hlast⟩ := ih hrest
          have hJne : joinWords (w' :: ws'') ≠ [] :=
            joinWords_ne_nil _ (by simp) fun v hv => (hrest v hv).1
          have hshape : joinWords (w :: w' :: ws'') = w ++ ' ' :: joinWords (w' :: ws'') := rfl
          refine ⟨?_, ?_, ?_⟩
          · rw [hshape, noDoubleSpace_append w _ hwsp]
            cases hJ : joinWords (w' :: ws'') with
            | nil => exact absurd hJ hJne
            | cons b r =>
                rw [hJ] at hnds hhead
                have hb : b ≠ ' ' := by
                  intro hb
                  exact hhead (by rw [hb]; rfl)
                simpa [noDoubleSpace, hb] using hnds
          · rw [hshape]
            match w, hwne with
            | a :: w'', _ =>
                show some a ≠ some ' '
                intro hcontra
                exact hwsp a (List.mem_cons_self _ _) (Option.some.inj hcontra)
          · rw [hshape, List.getLast?_append]
            cases hJ : joinWords (w' :: ws'') with
            | nil => exact absurd hJ hJne
            | cons b r =>
                rw [hJ] at hlast
                rw [List.getLast?_cons_cons]
                intro hcontra
                rw [Option.or_eq_some] at hcontra
                rcases hcontra with h | ⟨h, _⟩
                · exact hlast h
                · exact absurd h (by simp)

/-- Claim C9: for every input string, `normalize_text` returns text whose
characters are alphanumeric, `_` or single spaces (every other character
having been replaced by a space), with no uppercase letter and neither of
the two look-alike letters `ё`/`э` (folded to `е`), no two adjacent spaces,
and no leading or trailing space; and the function is deterministic. -/
theorem c9_normalize_contract (s : String) :
    (∀ c ∈ (normalizeText s).data, c = ' ' ∨ charIsAlphanumeric c = true ∨ c = '_') ∧
    (∀ c ∈ (normalizeText s).data, charIsUppercase c = false ∧ c ≠ 'ё' ∧ c ≠ 'э') ∧
    noDoubleSpace (normalizeText s).data = true ∧
    (normalizeText s).data.head? ≠ some ' ' ∧
    (normalizeText s).data.getLast? ≠ some ' ' ∧
    (∀ t : String, s = t → normalizeText s = normalizeText t) := by
  set m := ((s.data.map charToLower).map foldLookalike).map classifyChar with hmdef
  have hdata : (normalizeText s).data = joinWords (splitWsChars m) := rfl
  have hm : ∀ c ∈ m, ∃ y, c = classifyChar (foldLookalike (charToLower y)) := by
    intro c hc
    rw [hmdef] at hc
    simp only [List.mem_map] at hc
    obtain ⟨b, ⟨a2, ⟨y, _hy, rfl⟩, rfl⟩, rfl⟩ := hc
    exact ⟨y, rfl⟩
  have hwords : ∀ w ∈ splitWsChars m, w ≠ [] ∧
      ∀ c ∈ w, charIsWhitespace c = false ∧ c ∈ m := by
    intro w hw
    obtain ⟨hne, hmem⟩ := splitWsAux_sound m [] (by simp) w hw
    refine ⟨hne, fun c hc => ?_⟩
    obtain ⟨hws, hor⟩ := hmem c hc
    refine ⟨hws, ?_⟩
    rcases hor with h | h
    · exact h
    · exact absurd h (List.not_mem_nil c)
  have hnospace : ∀ w ∈ splitWsChars m, w ≠ [] ∧ ∀ c ∈ w, c ≠ ' ' := by
    intro w hw
    refine ⟨(hwords w hw).1, fun c hc hsp => ?_⟩
    have hws := ((hwords w hw).2 c hc).1
    rw [hsp] at hws
    exact absurd hws (by decide)
  have hok := joinWords_ok (splitWsChars m) hnospace
  refine ⟨?_, ?_, hdata ▸ hok.1, hdata ▸ hok.2.1, hdata ▸ hok.2.2,
    fun t h => h ▸ rfl⟩
  · intro c hc
    rw [hdata] at hc
    rcases joinWords_mem _ c hc with h | ⟨w, hw, hcw⟩
    · exact Or.inl h
    · obtain ⟨hws, hcm⟩ := (hwords w hw).2 c hcw
      obtain ⟨y, hy⟩ := hm c hcm
      subst hy
      rcases (pipeline_char_props y).1 hws with h' | h'
      · exact Or.inr (Or.inl h')
      · exact Or.inr (Or.inr h')
  · intro c hc
    rw [hdata] at hc
    rcases joinWords_mem _ c hc with h | ⟨w, hw, hcw⟩
    · subst h
      exact ⟨by decide, by decide, by decide⟩
    · obtain ⟨hws, hcm⟩ := (hwords w hw).2 c hcw
      obtain ⟨y, hy⟩ := hm c hcm
      subst hy
      exact (pipeline_char_props y).2

/-- Witness for C9 on the input "Ёж,  Эх!": the folded letter `е` appears
in the output and satisfies the character contract, and the output has no
doubled, leading or trailing space. -/
theorem c9_normalize_contract_witness :
    ('е' = ' ' ∨ charIsAlphanumeric 'е' = true ∨ 'е' = '_') ∧
    (charIsUppercase 'е' = false ∧ 'е' ≠ 'ё' ∧ 'е' ≠ 'э') ∧
    noDoubleSpace (normalizeText "Ёж,  Эх!").data = true ∧
    (normalizeText "Ёж,  Эх!").data.head? ≠ some ' ' ∧
    (normalizeText "Ёж,  Эх!").data.getLast? ≠ some ' ' :=
  ⟨(c9_normalize_contract "Ёж,  Эх!").1 'е' (by decide),
   (c9_normalize_contract "Ёж,  Эх!").2.1 'е' (by decide),
   (c9_normalize_contract "Ёж,  Эх!").2.2.1,
   (c9_normalize_contract "Ёж,  Эх!").2.2.2.1,
   (c9_normalize_contract "Ёж,  Эх!").2.2.2.2.1⟩

/-- Decoding the four little-endian bytes of an `i32` recovers the value. -/
theorem leBytes_roundtrip (n : Int) (h1 : -2147483648 ≤ n) (h2 : n < 2147483648) :
    leBytesToI32 ((n % 4294967296).toNat % 256) ((n % 4294967296).toNat / 256 % 256)
      ((n % 4294967296).toNat / 65536 % 256)
      ((n % 4294967296).toNat / 16777216 % 256) = n := by
  have hnn : (0 : Int) ≤ n % 4294967296 := Int.emod_nonneg n (by norm_num)
  have hu : ((n % 4294967296).toNat : Int) = n % 4294967296 := Int.toNat_of_nonneg hnn
  unfold leBytesToI32
  dsimp only
  split_ifs with h
  · omega
  · omega

/-- Claim C4: for every request id and packet type in i32 range and every
body whose encoded length `10 + len` lies within the accepted bound
`10 ..= 1048576`, decoding the bytes produced by the packet encoder
recovers exactly the original id, type and body (and consumes the whole
stream).  Bodies are the UTF-8 bytes of the command text, so byte-exact
recovery is text-exact recovery. -/
theorem c4_packet_roundtrip (id kind : Int) (body : List Nat)
    (hid1 : -2147483648 ≤ id) (hid2 : id < 2147483648)
    (hkind1 : -2147483648 ≤ kind) (hkind2 : kind < 2147483648)
    (hlen : body.length ≤ 1048566) :
    readPacket (encodePacket id kind body) = some (⟨id, kind, body⟩, []) := by
  have hd_len := leBytes_roundtrip ((4 + 4 + body.length + 2 : Nat) : Int)
    (by omega) (by push_cast; omega)
  have hd_id := leBytes_roundtrip id hid1 hid2
  have hd_kind := leBytes_roundtrip kind hkind1 hkind2
  simp only [encodePacket, i32ToLeBytes, List.cons_append, List.nil_append]
  simp only [readPacket]
  rw [hd_len]
  rw [if_pos ⟨by push_cast; omega, by push_cast; omega⟩]
  rw [Int.toNat_ofNat]
  have hlen0 : (((id % 4294967296).toNat % 256 :: (id % 4294967296).toNat / 256 % 256 ::
      (id % 4294967296).toNat / 65536 % 256 :: (id % 4294967296).toNat / 16777216 % 256 ::
      (kind % 4294967296).toNat % 256 :: (kind % 4294967296).toNat / 256 % 256 ::
      (kind % 4294967296).toNat / 65536 % 256 :: (kind % 4294967296).toNat / 16777216 % 256 ::
      (body ++ [0, 0]) : List Nat)).length = 4 + 4 + body.length + 2 := by
    simp [List.length_append]
    omega
  rw [if_neg (by omega)]
  rw [List.take_of_length_le (by omega)]
  rw [if_neg (by omega)]
  simp only [List.getD_cons_zero, List.getD_cons_succ]
  rw [hd_id, hd_kind]
  rw [show (((id % 4294967296).toNat % 256 :: (id % 4294967296).toNat / 256 % 256 ::
      (id % 4294967296).toNat / 65536 % 256 :: (id % 4294967296).toNat / 16777216 % 256 ::
      (kind % 4294967296).toNat % 256 :: (kind % 4294967296).toNat / 256 % 256 ::
      (kind % 4294967296).toNat / 65536 % 256 :: (kind % 4294967296).toNat / 16777216 % 256 ::
      (body ++ [0, 0]) : List Nat)).length - 10 = body.length by omega]
  have hdrop8 : (((id % 4294967296).toNat % 256 :: (id % 4294967296).toNat / 256 % 256 ::
      (id % 4294967296).toNat / 65536 % 256 :: (id % 4294967296).toNat / 16777216 % 256 ::
      (kind % 4294967296).toNat % 256 :: (kind % 4294967296).toNat / 256 % 256 ::
      (kind % 4294967296).toNat / 65536 % 256 :: (kind % 4294967296).toNat / 16777216 % 256 ::
      (body ++ [0, 0]) : List Nat)).drop 8 = body ++ [0, 0] := rfl
  rw [hdrop8, List.take_left' rfl]
  rw [show (4 + 4 + body.length + 2) =
      (((id % 4294967296).toNat % 256 :: (id % 4294967296).toNat / 256 % 256 ::
      (id % 4294967296).toNat / 65536 % 256 :: (id % 4294967296).toNat / 16777216 % 256 ::
      (kind % 4294967296).toNat % 256 :: (kind % 4294967296).toNat / 256 % 256 ::
      (kind % 4294967296).toNat / 65536 % 256 :: (kind % 4294967296).toNat / 16777216 % 256 ::
      (body ++ [0, 0]) : List Nat)).length by omega]
  rw [List.drop_length]

/-- Witness for C4 at id 5, the command type 2, and the two bytes of
"hi". -/
theorem c4_packet_roundtrip_witness :
    readPacket (encodePacket 5 2 [104, 105]) =
      some (⟨5, 2, [104, 105]⟩, []) :=
  c4_packet_roundtrip 5 2 [104, 105] (by norm_num) (by norm_num) (by norm_num)
    (by norm_num) (by norm_num)

/-- An empty word list generates no fuzzy candidates for any bucket. -/
theorem candidatesFor_nil (wc : Nat) : candidatesFor [] wc = [] := by
  cases wc <;> simp [candidatesFor, makeNgrams, collapsedNgrams]

/-- Claim C8: with a positive threshold, an alias of at least 5 characters
not already exact-matched is fuzzy-matched whenever some candidate from its
word-count bucket passes the length-window and first-character filters with
similarity exactly equal to the threshold; an alias all of whose candidates
have similarity strictly below the threshold is never matched; and an alias
shorter than 5 characters is never fuzzy-matched, regardless of
similarity. -/
theorem c8_fuzzy_gating :
    (∀ (aliases : List String) (text : String) (t : ℚ) (already : List String)
        (al candidate : String),
        0 < t →
        al ∈ aliases →
        already.contains al = false →
        5 ≤ charCount al →
        candidate ∈ candidatesFor (splitWhitespace text) (wordCount al) →
        isPlausibleLength al candidate = true →
        al.data.head? = candidate.data.head? →
        normalizedLevenshtein al candidate = t →
        al ∈ fuzzyMatchAliases aliases text t already) ∧
    (∀ (aliases : List String) (text : String) (t : ℚ) (already : List String)
        (al : String),
        (∀ candidate ∈ candidatesFor (splitWhitespace text) (wordCount al),
          normalizedLevenshtein al candidate < t) →
        al ∉ fuzzyMatchAliases aliases text t already) ∧
    (∀ (aliases : List String) (text : String) (t : ℚ) (already : List String)
        (al : String),
        charCount al < 5 →
        al ∉ fuzzyMatchAliases aliases text t already) := by
  refine ⟨?_, ?_, ?_⟩
  · intro aliases text t already al candidate _ht hal hcont hcc hcand hplaus hhead hsim
    unfold fuzzyMatchAliases
    dsimp only
    have hwne : (splitWhitespace text).isEmpty = false := by
      rw [List.isEmpty_eq_false]
      intro hcontra
      rw [hcontra, candidatesFor_nil] at hcand
      exact absurd hcand (List.not_mem_nil candidate)
    rw [if_neg (by rw [hwne]; exact Bool.false_ne_true)]
    refine List.mem_filter.mpr ⟨hal, ?_⟩
    rw [Bool.and_eq_true, Bool.and_eq_true]
    refine ⟨⟨by rw [hcont]; rfl, decide_eq_true hcc⟩, ?_⟩
    refine List.any_eq_true.mpr ⟨candidate, hcand, ?_⟩
    rw [Bool.and_eq_true, Bool.and_eq_true]
    exact ⟨⟨hplaus, beq_iff_eq.mpr hhead⟩, decide_eq_true (le_of_eq hsim.symm)⟩
  · intro aliases text t already al hall hmem
    unfold fuzzyMatchAliases at hmem
    dsimp only at hmem
    by_cases hw : (splitWhitespace text).isEmpty
    · rw [if_pos hw] at hmem
      exact absurd hmem (List.not_mem_nil al)
    · rw [if_neg hw] at hmem
      obtain ⟨-, hpred⟩ := List.mem_filter.mp hmem
      rw [Bool.and_eq_true, Bool.and_eq_true] at hpred
      obtain ⟨candidate, hcand, hb⟩ := List.any_eq_true.mp hpred.2
      rw [Bool.and_eq_true, Bool.and_eq_true] at hb
      have hle : t ≤ normalizedLevenshtein al candidate := of_decide_eq_true hb.2
      exact absurd hle (not_le.mpr (hall candidate hcand))
  · intro aliases text t already al hcc hmem
    unfold fuzzyMatchAliases at hmem
    dsimp only at hmem
    by_cases hw : (splitWhitespace text).isEmpty
    · rw [if_pos hw] at hmem
      exact absurd hmem (List.not_mem_nil al)
    · rw [if_neg hw] at hmem
      obtain ⟨-, hpred⟩ := List.mem_filter.mp hmem
      rw [Bool.and_eq_true, Bool.and_eq_true] at hpred
      have : 5 ≤ charCount al := of_decide_eq_true hpred.1.2
      omega

/-- Witness for C8: the alias "stone" is matched by the candidate "stonf"
at similarity exactly 4/5 with threshold 4/5; "xyzzy" (similarity 0 to the
only candidate) is not matched at that threshold; the 4-character alias
"dirt" is never fuzzy-matched even against itself. -/
theorem c8_fuzzy_gating_witness :
    "stone" ∈ fuzzyMatchAliases ["stone"] "stonf" (4/5) [] ∧
    "xyzzy" ∉ fuzzyMatchAliases ["xyzzy"] "stonf" (4/5) [] ∧
    "dirt" ∉ fuzzyMatchAliases ["dirt"] "dirt" (1/2) [] := by
  have hsim : normalizedLevenshtein "stone" "stonf" = 4/5 := by
    have hlev : levenshtein Levenshtein.defaultCost "stone".data "stonf".data = 1 := by
      decide
    rw [normalizedLevenshtein, if_neg (by decide)]
    rw [hlev]
    norm_num [charCount]
  refine ⟨?_, ?_, ?_⟩
  · exact c8_fuzzy_gating.1 ["stone"] "stonf" (4/5) [] "stone" "stonf"
      (by norm_num) (by simp) (by decide) (by decide) (by decide) (by decide)
      (by decide) hsim
  · refine c8_fuzzy_gating.2.1 ["xyzzy"] "stonf" (4/5) [] "xyzzy" ?_
    intro candidate hcand
    rw [show candidatesFor (splitWhitespace "stonf") (wordCount "xyzzy") = ["stonf"]
      from by decide] at hcand
    rw [List.mem_singleton] at hcand
    subst hcand
    have hlev : levenshtein Levenshtein.defaultCost "xyzzy".data "stonf".data = 5 := by
      decide
    rw [normalizedLevenshtein, if_neg (by decide), hlev]
    norm_num [charCount]
  · exact c8_fuzzy_gating.2.2 ["dirt"] "dirt" (1/2) [] "dirt" (by decide)

end BlockDeletee
